import Mathlib

/-!
# Verification of csv2md (src/csv2md.py)

A shallow embedding of the csv2md conversion pipeline.  Python strings are
embedded as `List Char`; a CSV row is a `List (List Char)` and a table is a
`List (List (List Char))`.  Pure functions of the source are translated into
computable Lean functions; the file-system and encodings are abstracted into
explicit inputs (the decoded content of the input file).
-/

/-- The set of characters matched by Python's regex class for whitespace on
`str` (and stripped by `str.strip()`): ASCII whitespace, the information
separators, and the Unicode space characters. -/
def pySpaceChars : List Char :=
  [' ', '\t', '\n', '\r', '\x0b', '\x0c', '\x1c', '\x1d', '\x1e', '\x1f',
   '\x85', '\xa0', ' ', ' ', ' ', ' ', ' ', ' ',
   ' ', ' ', ' ', ' ', ' ', ' ', ' ',
   ' ', ' ', ' ', '　']

/-- Python whitespace test (`\s` / `str.isspace`). -/
def isPySpace (c : Char) : Bool := pySpaceChars.contains c

/-- `text.replace('|', '\\|')` from `escape_markdown_chars`: every literal
pipe is prefixed with a backslash. -/
def escapePipes : List Char → List Char
  | [] => []
  | c :: cs => if c = '|' then '\\' :: '|' :: escapePipes cs else c :: escapePipes cs

/-- `text.replace('\n', ' ')` from `escape_markdown_chars`. -/
def replaceLF (l : List Char) : List Char :=
  l.map fun c => if c = '\n' then ' ' else c

/-- `text.replace('\r', ' ')` from `escape_markdown_chars`. -/
def replaceCR (l : List Char) : List Char :=
  l.map fun c => if c = '\r' then ' ' else c

/-- Worker for whitespace-run collapsing; the flag records whether we are
inside a whitespace run whose single replacement space was already emitted. -/
def collapseWSAux : Bool → List Char → List Char
  | _, [] => []
  | afterSpace, c :: cs =>
    if isPySpace c then
      if afterSpace then collapseWSAux true cs else ' ' :: collapseWSAux true cs
    else c :: collapseWSAux false cs

/-- The regex substitution from the source: every run of one-or-more
whitespace characters is replaced by a single space. -/
def collapseWS (l : List Char) : List Char := collapseWSAux false l

/-- Left half of Python's `str.strip()`: drop leading whitespace. -/
def lstripWS (l : List Char) : List Char := l.dropWhile isPySpace

/-- Right half of Python's `str.strip()`: drop trailing whitespace. -/
def rstripWS : List Char → List Char
  | [] => []
  | c :: cs =>
    match rstripWS cs with
    | [] => if isPySpace c then [] else [c]
    | r => c :: r

/-- Python's `str.strip()`: remove leading and trailing whitespace. -/
def pyStrip (l : List Char) : List Char := rstripWS (lstripWS l)

/-- `CSV2MD.escape_markdown_chars` (src/csv2md.py lines 57-72): escape pipes,
replace LF then CR by spaces, collapse whitespace runs, strip both ends. -/
def escape_markdown_chars (text : List Char) : List Char :=
  pyStrip (collapseWS (replaceCR (replaceLF (escapePipes text))))

/-- The cell separator `" | "` used when joining cells of a line. -/
def sepBar : List Char := [' ', '|', ' ']

/-- `" | ".join(cells)`. -/
def joinSep : List (List Char) → List Char
  | [] => []
  | [c] => c
  | c :: cs => c ++ sepBar ++ joinSep cs

/-- `"| " + " | ".join(cells) + " |"`: one emitted table line. -/
def mkLine (cells : List (List Char)) : List Char :=
  '|' :: ' ' :: (joinSep cells ++ [' ', '|'])

/-- Width normalization of a data row against the header length
(src/csv2md.py lines 94-100): pad with empty fields while shorter, then
truncate to the header length. -/
def normalize_row (headerLen : Nat) (row : List (List Char)) : List (List Char) :=
  (row ++ List.replicate (headerLen - row.length) []).take headerLen

/-- The emitted header line (src/csv2md.py lines 83-85). -/
def header_line (header : List (List Char)) : List Char :=
  mkLine (header.map escape_markdown_chars)

/-- The emitted separator line (src/csv2md.py lines 88-89). -/
def separator_line (header : List (List Char)) : List Char :=
  mkLine (List.replicate header.length ['-', '-', '-'])

/-- One emitted data line (src/csv2md.py lines 92-103): normalize the row to
the header width, escape each cell, join and wrap. -/
def data_line (headerLen : Nat) (row : List (List Char)) : List Char :=
  mkLine ((normalize_row headerLen row).map escape_markdown_chars)

/-- The list `markdown_lines` accumulated by `convert_to_markdown_table`. -/
def markdown_lines : List (List (List Char)) → List (List Char)
  | [] => []
  | header :: data =>
    header_line header :: separator_line header :: data.map (data_line header.length)

/-- `"\n".join(lines)`. -/
def joinLines : List (List Char) → List Char
  | [] => []
  | [l] => l
  | l :: ls => l ++ '\n' :: joinLines ls

/-- `CSV2MD.convert_to_markdown_table` (src/csv2md.py lines 74-105): empty
input gives the empty string, otherwise the header line, separator line and
one line per data row, joined by newlines. -/
def convert_to_markdown_table (rows : List (List (List Char))) : List Char :=
  match rows with
  | [] => []
  | _ => joinLines (markdown_lines rows)

/-- C1. Every data row emitted by `convert_to_markdown_table` is first
normalized to exactly the header's field count: a shorter row is padded at
the end with empty fields up to the header length, a longer row is truncated
to its first header-length fields. -/
theorem data_rows_normalized (header row : List (List Char))
    (data : List (List (List Char))) :
    convert_to_markdown_table (header :: data) =
      joinLines (header_line header :: separator_line header ::
        data.map (data_line header.length)) ∧
    data_line header.length row =
      mkLine ((normalize_row header.length row).map escape_markdown_chars) ∧
    (normalize_row header.length row).length = header.length ∧
    (row.length ≤ header.length →
      normalize_row header.length row =
        row ++ List.replicate (header.length - row.length) []) ∧
    (header.length ≤ row.length →
      normalize_row header.length row = row.take header.length) := by
  refine ⟨rfl, rfl, ?_, ?_, ?_⟩
  · simp only [normalize_row, List.length_take, List.length_append,
      List.length_replicate]
    omega
  · intro h
    have hlen : (row ++ List.replicate (header.length - row.length)
        ([] : List Char)).length = header.length := by
      simp only [List.length_append, List.length_replicate]; omega
    simpa [normalize_row] using List.take_of_length_le (le_of_eq hlen)
  · intro h
    have hz : header.length - row.length = 0 := by omega
    simp [normalize_row, hz]

/-- Witness for C1 at concrete inputs: a short row is padded, a long row is
truncated. -/
theorem data_rows_normalized_w :
    normalize_row 2 [['1']] = [['1']] ++ List.replicate (2 - 1) [] ∧
    normalize_row 1 [['1'], ['2']] = [['1'], ['2']].take 1 :=
  ⟨(data_rows_normalized [['a'], ['b']] [['1']] []).2.2.2.1 (by decide),
   (data_rows_normalized [['a']] [['1'], ['2']] []).2.2.2.2 (by decide)⟩

/-- C2. The separator line consists of exactly `header.length` many `"---"`
tokens, joined with `" | "` and wrapped with `"| "` and `" |"`, for any data
rows whatsoever. -/
theorem separator_line_token_count (header : List (List Char))
    (data : List (List (List Char))) :
    separator_line header = mkLine (List.replicate header.length ['-', '-', '-']) ∧
    (List.replicate header.length (['-', '-', '-'] : List Char)).length =
      header.length ∧
    convert_to_markdown_table (header :: data) =
      joinLines (header_line header :: separator_line header ::
        data.map (data_line header.length)) :=
  ⟨rfl, List.length_replicate _ _, rfl⟩

/-- C3. `escape_markdown_chars` applies, in order: pipe escaping, newline
(LF, CR) replacement by spaces, whitespace-run collapsing, and stripping;
`"x|y"` becomes `"x\|y"` and `"line1\nline2"` becomes `"line1 line2"`. -/
theorem escape_markdown_chars_pipeline :
    (∀ s : List Char, escape_markdown_chars s =
      pyStrip (collapseWS (replaceCR (replaceLF (escapePipes s))))) ∧
    escape_markdown_chars ("x|y".toList) = "x\\|y".toList ∧
    escape_markdown_chars ("line1\nline2".toList) = "line1 line2".toList :=
  ⟨fun _ => rfl, by decide, by decide⟩

/-- C6. A table with zero rows converts to the empty string; a table with
only a header row converts to exactly the header line and the separator
line, with no data lines. -/
theorem convert_empty_and_header_only (header : List (List Char)) :
    convert_to_markdown_table ([] : List (List (List Char))) = [] ∧
    convert_to_markdown_table [header] =
      header_line header ++ '\n' :: separator_line header :=
  ⟨rfl, rfl⟩

/-! ## Loader and orchestration models -/

/-- Modelled from the spec: the delimiter-sniffing heuristic
(`csv.Sniffer().sniff(sample)` from the Python standard library, which is not
part of src/).  The spec (§4.1, §9): the delimiter is detected best-effort
from the sample among common candidate delimiters by frequency, and the
sniffer fails with a delimiter-detection error when no delimiter can be
detected — in particular on an empty sample, where no candidate occurs. -/
def sniff (sample : List Char) : Except (List Char) Char :=
  let best := [',', '\t', ';', ' ', ':'].foldl
    (fun acc d =>
      match acc with
      | none => if 0 < sample.count d then some (d, sample.count d) else none
      | some (b, n) =>
        if n < sample.count d then some (d, sample.count d) else some (b, n))
    none
  match best with
  | none => Except.error "Could not determine delimiter".toList
  | some (d, _) => Except.ok d

/-- States of the CSV record/field scanner (Python `csv.reader`, default
dialect: quote character `"`, doubled quotes inside quoted fields). -/
inductive ParseState where
  | startRecord
  | startField
  | inField
  | inQuoted
  | quoteInQuoted
  | eatCRNL
deriving DecidableEq

/-- Accumulator of the CSV scanner: the current field and record are
accumulated in reverse. -/
structure ParseAcc where
  field : List Char
  record : List (List Char)
  rows : List (List (List Char))
  state : ParseState

/-- Scanner transition for a character at field start (also used from record
start for non-terminator characters). -/
def stepStartField (d : Char) (a : ParseAcc) (c : Char) : ParseAcc :=
  if c = '"' then { a with state := ParseState.inQuoted }
  else if c = d then
    { a with record := a.field.reverse :: a.record, field := [],
             state := ParseState.startField }
  else if c = '\n' then
    { a with rows := (a.field.reverse :: a.record).reverse :: a.rows,
             record := [], field := [], state := ParseState.startRecord }
  else if c = '\r' then
    { a with rows := (a.field.reverse :: a.record).reverse :: a.rows,
             record := [], field := [], state := ParseState.eatCRNL }
  else { a with field := c :: a.field, state := ParseState.inField }

/-- Scanner transition at record start: a bare line terminator yields an
empty (zero-field) record, as Python's `csv.reader` does for a blank line. -/
def stepStartRecord (d : Char) (a : ParseAcc) (c : Char) : ParseAcc :=
  if c = '\n' then { a with rows := [] :: a.rows, state := ParseState.startRecord }
  else if c = '\r' then { a with rows := [] :: a.rows, state := ParseState.eatCRNL }
  else stepStartField d a c

/-- One transition of the CSV scanner. -/
def csv_step (d : Char) (a : ParseAcc) (c : Char) : ParseAcc :=
  match a.state with
  | ParseState.startRecord => stepStartRecord d a c
  | ParseState.startField => stepStartField d a c
  | ParseState.inField =>
    if c = d then
      { a with record := a.field.reverse :: a.record, field := [],
               state := ParseState.startField }
    else if c = '\n' then
      { a with rows := (a.field.reverse :: a.record).reverse :: a.rows,
               record := [], field := [], state := ParseState.startRecord }
    else if c = '\r' then
      { a with rows := (a.field.reverse :: a.record).reverse :: a.rows,
               record := [], field := [], state := ParseState.eatCRNL }
    else { a with field := c :: a.field }
  | ParseState.inQuoted =>
    if c = '"' then { a with state := ParseState.quoteInQuoted }
    else { a with field := c :: a.field }
  | ParseState.quoteInQuoted =>
    if c = '"' then { a with field := '"' :: a.field, state := ParseState.inQuoted }
    else if c = d then
      { a with record := a.field.reverse :: a.record, field := [],
               state := ParseState.startField }
    else if c = '\n' then
      { a with rows := (a.field.reverse :: a.record).reverse :: a.rows,
               record := [], field := [], state := ParseState.startRecord }
    else if c = '\r' then
      { a with rows := (a.field.reverse :: a.record).reverse :: a.rows,
               record := [], field := [], state := ParseState.eatCRNL }
    else { a with field := c :: a.field, state := ParseState.inField }
  | ParseState.eatCRNL =>
    if c = '\n' then { a with state := ParseState.startRecord }
    else stepStartRecord d a c

/-- Flush the scanner at end of input: a pending record (any state other
than a record boundary) is emitted. -/
def csv_finish (a : ParseAcc) : List (List (List Char)) :=
  match a.state with
  | ParseState.startRecord => a.rows.reverse
  | ParseState.eatCRNL => a.rows.reverse
  | _ => ((a.field.reverse :: a.record).reverse :: a.rows).reverse

/-- `list(csv.reader(file, delimiter=d))`: parse the whole decoded content
into rows of fields. -/
def csv_parse (d : Char) (s : List Char) : List (List (List Char)) :=
  csv_finish (s.foldl (csv_step d)
    { field := [], record := [], rows := [], state := ParseState.startRecord })

/-- The body shared by both encoding branches of `CSV2MD.read_csv`
(src/csv2md.py lines 34-53): sniff the delimiter from the first 1024
characters, then parse the whole content; a sniffing error propagates. -/
def read_csv_from (content : List Char) :
    Except (List Char) (List (List (List Char))) :=
  match sniff (content.take 1024) with
  | Except.error e => Except.error e
  | Except.ok d => Except.ok (csv_parse d content)

/-- The input file as seen under the two decodings tried by `read_csv`:
`utf8?` is the decoded text when the bytes are valid UTF-8 (otherwise
`none`), `sjis?` likewise for Shift-JIS. -/
structure EncodedFile where
  utf8? : Option (List Char)
  sjis? : Option (List Char)

/-- The decoding-failure error (`UnicodeDecodeError`) propagated when
neither encoding can decode the file. -/
def decodeError : List Char := "UnicodeDecodeError".toList

/-- `CSV2MD.read_csv` (src/csv2md.py lines 25-55) over an existing file:
read as UTF-8; only if that raises `UnicodeDecodeError` re-read the whole
file as Shift-JIS; a decoding failure of the Shift-JIS read propagates. -/
def read_csv (f : EncodedFile) : Except (List Char) (List (List (List Char))) :=
  match f.utf8? with
  | some content => read_csv_from content
  | none =>
    match f.sjis? with
    | some content => read_csv_from content
    | none => Except.error decodeError

/-- Observable outcome of `CSV2MD.convert`: the content written to the
output file (if any) and whether the empty-input warning was printed. -/
structure ConvertOutcome where
  written : Option (List Char)
  emptyWarning : Bool
deriving DecidableEq

/-- `CSV2MD.convert` (src/csv2md.py lines 119-149), parameterized by the
outcome of `read_csv`: any exception is caught and `None` returned; zero
rows print a warning and return `None` without writing; otherwise the
converted table is written and the output path returned. -/
def convert (readResult : Except (List Char) (List (List (List Char)))) :
    ConvertOutcome :=
  match readResult with
  | Except.error _ => { written := none, emptyWarning := false }
  | Except.ok [] => { written := none, emptyWarning := true }
  | Except.ok rows =>
    { written := some (convert_to_markdown_table rows), emptyWarning := false }

/-- `main` (src/csv2md.py lines 165-170): exit code 0 when `convert`
returned a path, else 1. -/
def main_exit (readResult : Except (List Char) (List (List (List Char)))) : Nat :=
  if (convert readResult).written.isSome then 0 else 1

/-- The caller-visible state of the `rows` argument after
`convert_to_markdown_table` returns (src/csv2md.py lines 92-100): the
in-place `row.append("")` padding of short data rows persists in the
caller's lists, while the truncation `row = row[:header_length]` rebinds a
local name to a new list and leaves long rows untouched; the header row is
never mutated. -/
def table_after_convert (rows : List (List (List Char))) :
    List (List (List Char)) :=
  match rows with
  | [] => []
  | header :: data =>
    header :: data.map (fun row => row ++ List.replicate (header.length - row.length) [])

/-- Helper: a map that fixes no member cannot return the list unchanged. -/
theorem map_ne_self_of_mem {α : Type} (f : α → α) (l : List α) (x : α)
    (hx : x ∈ l) (hfx : f x ≠ x) : l.map f ≠ l := by
  induction hx with
  | head l =>
    intro h
    simp only [List.map_cons, List.cons.injEq] at h
    exact hfx h.1
  | tail a hm ih =>
    intro h
    simp only [List.map_cons, List.cons.injEq] at h
    exact ih h.2

/-- C10. `convert_to_markdown_table` mutates its argument: each data row
shorter than the header gains trailing empty fields in place (so the
caller-visible table changes), while the header row and data rows at least
as long as the header are left unchanged. -/
theorem convert_mutates_short_rows (header : List (List Char))
    (data : List (List (List Char))) :
    table_after_convert (header :: data) =
      header :: data.map (fun row =>
        row ++ List.replicate (header.length - row.length) []) ∧
    (∀ row ∈ data, row.length < header.length →
      row ++ List.replicate (header.length - row.length) [] ≠ row ∧
      (row ++ List.replicate (header.length - row.length) []).length =
        header.length) ∧
    (∀ row ∈ data, header.length ≤ row.length →
      row ++ List.replicate (header.length - row.length) [] = row) ∧
    ((∃ row ∈ data, row.length < header.length) →
      table_after_convert (header :: data) ≠ header :: data) := by
  refine ⟨rfl, ?_, ?_, ?_⟩
  · intro row _ hlt
    constructor
    · intro h
      have := congrArg List.length h
      simp only [List.length_append, List.length_replicate] at this
      omega
    · simp only [List.length_append, List.length_replicate]; omega
  · intro row _ hle
    have hz : header.length - row.length = 0 := by omega
    simp [hz]
  · rintro ⟨row, hmem, hlt⟩ h
    simp only [table_after_convert, List.cons.injEq] at h
    refine map_ne_self_of_mem _ data row hmem ?_ h.2
    intro hfix
    have := congrArg List.length hfix
    simp only [List.length_append, List.length_replicate] at this
    omega

/-- Witness for C10: padding a one-field row against a two-field header
changes the caller-visible table. -/
theorem convert_mutates_short_rows_w :
    table_after_convert [[['a'], ['b']], [['1']]] ≠ [[['a'], ['b']], [['1']]] :=
  (convert_mutates_short_rows [['a'], ['b']] [[['1']]]).2.2.2
    ⟨[['1']], by decide, by decide⟩

/-- C7 (code bug): on an input file with no parseable content — the empty
file, the only input whose parse yields zero rows — `read_csv` does not
return an empty Table: the delimiter sniffer finds no delimiter in the empty
sample and its error propagates out of `read_csv`, even though the
empty-rows branch of `convert` shows the empty Table was the intended
outcome. -/
theorem read_csv_empty_content_errors :
    read_csv { utf8? := some [], sjis? := none } =
      Except.error "Could not determine delimiter".toList ∧
    read_csv_from [] = Except.error "Could not determine delimiter".toList := by
  constructor <;> rfl

/-- C8 (counterexample): when the parsed file yields zero rows the process
exit code is not 0. -/
theorem empty_rows_exit_code_cex :
    main_exit (Except.ok []) ≠ 0 := by decide

/-- C8 (amended). When the parsed file yields zero rows, the program
produces no output file, reports the empty input as a warning, and exits
with process exit code 1. -/
theorem empty_rows_exit_code :
    (convert (Except.ok [])).written = none ∧
    (convert (Except.ok [])).emptyWarning = true ∧
    main_exit (Except.ok []) = 1 := by
  refine ⟨rfl, rfl, rfl⟩

/-- C9. `read_csv` decodes the file as UTF-8 first; exactly when UTF-8
decoding fails it re-reads the whole file as Shift-JIS; when both decodings
fail the decoding error propagates; and a file decodable only as Shift-JIS
yields the same Markdown output as a UTF-8 file with the same decoded
content. -/
theorem read_csv_encoding_fallback :
    (∀ (f : EncodedFile) (s : List Char), f.utf8? = some s →
      read_csv f = read_csv_from s) ∧
    (∀ (f : EncodedFile) (s : List Char), f.utf8? = none → f.sjis? = some s →
      read_csv f = read_csv_from s) ∧
    (∀ f : EncodedFile, f.utf8? = none → f.sjis? = none →
      read_csv f = Except.error decodeError) ∧
    (∀ (f g : EncodedFile) (s : List Char), f.utf8? = none → f.sjis? = some s →
      g.utf8? = some s →
      (read_csv f).map convert_to_markdown_table =
        (read_csv g).map convert_to_markdown_table) := by
  refine ⟨?_, ?_, ?_, ?_⟩
  · intro f s h; simp [read_csv, h]
  · intro f s h1 h2; simp [read_csv, h1, h2]
  · intro f h1 h2; simp [read_csv, h1, h2]
  · intro f g s h1 h2 h3; simp [read_csv, h1, h2, h3]

/-- Witness for C9 at a concrete file content: a Shift-JIS-only file and a
UTF-8 file with the same decoded content produce identical results. -/
theorem read_csv_encoding_fallback_w :
    read_csv { utf8? := none, sjis? := some ("a,b\nc,d".toList) } =
      read_csv_from ("a,b\nc,d".toList) ∧
    (read_csv { utf8? := none, sjis? := some ("a,b\nc,d".toList) }).map
        convert_to_markdown_table =
      (read_csv { utf8? := some ("a,b\nc,d".toList), sjis? := none }).map
        convert_to_markdown_table ∧
    read_csv { utf8? := none, sjis? := none } = Except.error decodeError :=
  ⟨read_csv_encoding_fallback.2.1 _ _ rfl rfl,
   read_csv_encoding_fallback.2.2.2 _ _ _ rfl rfl rfl,
   read_csv_encoding_fallback.2.2.1 _ rfl rfl⟩

/-! ## Idempotence of escaping (C4) -/

/-- A map that fixes every member of a list leaves the list unchanged. -/
theorem map_id_of_mem {α : Type} (f : α → α) (l : List α)
    (h : ∀ c ∈ l, f c = c) : l.map f = l := by
  induction l with
  | nil => rfl
  | cons a l ih =>
    simp only [List.map_cons]
    rw [h a (List.mem_cons_self a l), ih (fun c hc => h c (List.mem_cons_of_mem a hc))]

/-- Pipe escaping is the identity on pipe-free text. -/
theorem escapePipes_eq_self (l : List Char) (h : '|' ∉ l) : escapePipes l = l := by
  induction l with
  | nil => rfl
  | cons c cs ih =>
    have hc : c ≠ '|' := fun hc => h (hc ▸ List.mem_cons_self c cs)
    simp only [escapePipes, if_neg (fun hc2 => hc hc2)]
    rw [ih (fun hm => h (List.mem_cons_of_mem c hm))]

/-- Every character of the collapsed text is either the replacement space or
a non-whitespace character of the original text. -/
theorem mem_collapseWSAux (l : List Char) :
    ∀ (b : Bool) (c : Char), c ∈ collapseWSAux b l →
      c = ' ' ∨ (c ∈ l ∧ isPySpace c = false) := by
  induction l with
  | nil => intro b c hc; cases hc
  | cons a cs ih =>
    intro b c hc
    by_cases ha : isPySpace a
    · simp only [collapseWSAux, if_pos ha] at hc
      cases b with
      | true =>
        rcases ih true c hc with h | ⟨hm, hs⟩
        · exact Or.inl h
        · exact Or.inr ⟨List.mem_cons_of_mem a hm, hs⟩
      | false =>
        rcases List.mem_cons.mp hc with h | h
        · exact Or.inl h
        · rcases ih true c h with h2 | ⟨hm, hs⟩
          · exact Or.inl h2
          · exact Or.inr ⟨List.mem_cons_of_mem a hm, hs⟩
    · simp only [collapseWSAux, if_neg ha] at hc
      rcases List.mem_cons.mp hc with h | h
      · subst h
        exact Or.inr ⟨List.mem_cons_self c cs, by simpa using ha⟩
      · rcases ih false c h with h2 | ⟨hm, hs⟩
        · exact Or.inl h2
        · exact Or.inr ⟨List.mem_cons_of_mem a hm, hs⟩

/-- Dropping a prefix keeps membership. -/
theorem mem_of_mem_dropWhile {p : Char → Bool} {l : List Char} {c : Char}
    (h : c ∈ l.dropWhile p) : c ∈ l := by
  induction l with
  | nil => cases h
  | cons a cs ih =>
    by_cases ha : p a
    · rw [List.dropWhile_cons_of_pos ha] at h
      exact List.mem_cons_of_mem a (ih h)
    · rwa [List.dropWhile_cons_of_neg (by simpa using ha)] at h

/-- Right-stripping removes a (possibly empty) trailing block. -/
theorem rstripWS_append_exists (l : List Char) : ∃ t, rstripWS l ++ t = l := by
  induction l with
  | nil => exact ⟨[], rfl⟩
  | cons c cs ih =>
    rcases ih with ⟨t, ht⟩
    cases h : rstripWS cs with
    | nil =>
      by_cases hc : isPySpace c
      · exact ⟨c :: cs, by simp [rstripWS, h, hc]⟩
      · refine ⟨cs, ?_⟩
        simp only [rstripWS, h, if_neg hc]
        rfl
    | cons x xs =>
      refine ⟨t, ?_⟩
      rw [h] at ht
      simp only [rstripWS, h]
      rw [List.cons_append, ht]

/-- Whitespace-normal form: every whitespace character is a plain space and
no two whitespace characters are adjacent (the flag records whether the
previous character was whitespace). -/
def wsNormal : Bool → List Char → Bool
  | _, [] => true
  | prevSpace, c :: cs =>
    if isPySpace c then ((!prevSpace) && (c == ' ')) && wsNormal true cs
    else wsNormal false cs

/-- The flag `true` variant of normality is the stronger one. -/
theorem wsNormal_false_of_true (l : List Char) (h : wsNormal true l = true) :
    wsNormal false l = true := by
  cases l with
  | nil => rfl
  | cons c cs =>
    by_cases hc : isPySpace c
    · simp [wsNormal, hc] at h
    · simpa [wsNormal, hc] using h

/-- Collapsed text is whitespace-normal. -/
theorem wsNormal_collapseWSAux (l : List Char) :
    ∀ b : Bool, wsNormal b (collapseWSAux b l) = true := by
  induction l with
  | nil => intro b; rfl
  | cons c cs ih =>
    intro b
    by_cases hc : isPySpace c
    · cases b with
      | true => simpa [collapseWSAux, hc] using ih true
      | false =>
        have hsp : isPySpace ' ' = true := by decide
        simpa [collapseWSAux, hc, wsNormal, hsp] using ih true
    · simpa [collapseWSAux, hc, wsNormal] using ih false

/-- Collapsing is the identity on whitespace-normal text. -/
theorem collapseWSAux_eq_self (l : List Char) :
    ∀ b : Bool, wsNormal b l = true → collapseWSAux b l = l := by
  induction l with
  | nil => intro b _; rfl
  | cons c cs ih =>
    intro b h
    by_cases hc : isPySpace c
    · simp only [wsNormal, if_pos hc, Bool.and_eq_true, Bool.not_eq_true',
        beq_iff_eq] at h
      rcases h with ⟨⟨hb, hcsp⟩, hcs⟩
      subst hb
      simp only [collapseWSAux, if_pos hc, if_neg (Bool.false_ne_true)]
      rw [ih true hcs, hcsp]
    · simp only [wsNormal, if_neg hc] at h
      simp only [collapseWSAux, if_neg hc]
      rw [ih false h]

/-- Normality restricts to an initial segment. -/
theorem wsNormal_append_left (l₁ l₂ : List Char) :
    ∀ b : Bool, wsNormal b (l₁ ++ l₂) = true → wsNormal b l₁ = true := by
  induction l₁ with
  | nil => intro b _; rfl
  | cons c cs ih =>
    intro b h
    by_cases hc : isPySpace c
    · simp only [List.cons_append, wsNormal, if_pos hc, Bool.and_eq_true] at h ⊢
      exact ⟨h.1, ih true h.2⟩
    · simp only [List.cons_append, wsNormal, if_neg hc] at h ⊢
      exact ih false h

/-- Normality is preserved by left-stripping. -/
theorem wsNormal_lstripWS (l : List Char) (h : wsNormal false l = true) :
    wsNormal false (lstripWS l) = true := by
  induction l with
  | nil => rfl
  | cons c cs ih =>
    by_cases hc : isPySpace c
    · simp only [wsNormal, if_pos hc, Bool.and_eq_true] at h
      simp only [lstripWS, List.dropWhile_cons_of_pos hc]
      exact ih (wsNormal_false_of_true cs h.2)
    · simpa only [lstripWS, List.dropWhile_cons_of_neg (by simpa using hc)]
        using h

/-- The head surviving `dropWhile` falsifies the predicate. -/
theorem dropWhile_head_false {p : Char → Bool} {l : List Char} {c : Char}
    {cs : List Char} (h : l.dropWhile p = c :: cs) : p c = false := by
  induction l with
  | nil => cases h
  | cons a l' ih =>
    by_cases ha : p a
    · rw [List.dropWhile_cons_of_pos ha] at h
      exact ih h
    · rw [List.dropWhile_cons_of_neg (by simpa using ha)] at h
      cases h
      simpa using ha

/-- Right-stripping is idempotent. -/
theorem rstripWS_idem (l : List Char) : rstripWS (rstripWS l) = rstripWS l := by
  induction l with
  | nil => rfl
  | cons c cs ih =>
    cases h : rstripWS cs with
    | nil =>
      by_cases hc : isPySpace c
      · simp [rstripWS, h, hc]
      · simp [rstripWS, h, hc]
    | cons x xs =>
      rw [h] at ih
      have hcc : rstripWS (c :: cs) = c :: x :: xs := by
        rw [show rstripWS (c :: cs) = (match rstripWS cs with
          | [] => if isPySpace c then [] else [c]
          | r => c :: r) from rfl, h]
      rw [hcc]
      rw [show rstripWS (c :: x :: xs) = (match rstripWS (x :: xs) with
        | [] => if isPySpace c then [] else [c]
        | r => c :: r) from rfl, ih]

/-- `pyStrip` output has no leading whitespace. -/
theorem lstripWS_pyStrip (l : List Char) : lstripWS (pyStrip l) = pyStrip l := by
  unfold pyStrip
  cases ht : rstripWS (lstripWS l) with
  | nil => rfl
  | cons c t' =>
    rcases rstripWS_append_exists (lstripWS l) with ⟨w, hw⟩
    rw [ht] at hw
    have hl : l.dropWhile isPySpace = c :: (t' ++ w) := by
      simpa [lstripWS] using hw.symm
    have hc : isPySpace c = false := dropWhile_head_false hl
    show (c :: t').dropWhile isPySpace = c :: t'
    exact List.dropWhile_cons_of_neg (by simp [hc])

/-- `pyStrip` is idempotent. -/
theorem pyStrip_idem (l : List Char) : pyStrip (pyStrip l) = pyStrip l := by
  conv_lhs => rw [pyStrip, lstripWS_pyStrip]
  rw [pyStrip, rstripWS_idem]

/-- Normality is preserved by stripping. -/
theorem wsNormal_pyStrip (l : List Char) (h : wsNormal false l = true) :
    wsNormal false (pyStrip l) = true := by
  have h1 := wsNormal_lstripWS l h
  rcases rstripWS_append_exists (lstripWS l) with ⟨w, hw⟩
  have := wsNormal_append_left (rstripWS (lstripWS l)) w false (by rwa [hw])
  simpa [pyStrip] using this

/-- On text without pipes and newlines, the first three stages of escaping
are the identity. -/
theorem escape_of_clean (s : List Char)
    (h : '|' ∉ s ∧ '\n' ∉ s ∧ '\r' ∉ s) :
    escape_markdown_chars s = pyStrip (collapseWS s) := by
  unfold escape_markdown_chars
  rw [escapePipes_eq_self s h.1]
  rw [show replaceLF s = s from
    map_id_of_mem _ s (fun c hc => by
      have hne : c ≠ '\n' := fun he => h.2.1 (he ▸ hc)
      simp [hne])]
  rw [show replaceCR s = s from
    map_id_of_mem _ s (fun c hc => by
      have hne : c ≠ '\r' := fun he => h.2.2 (he ▸ hc)
      simp [hne])]

/-- Characters of the escaped text of clean input: a space or a
non-whitespace character of the input. -/
theorem mem_pyStrip_collapseWS (s : List Char) (c : Char)
    (hc : c ∈ pyStrip (collapseWS s)) :
    c = ' ' ∨ (c ∈ s ∧ isPySpace c = false) := by
  rcases rstripWS_append_exists (lstripWS (collapseWS s)) with ⟨w, hw⟩
  have h1 : c ∈ lstripWS (collapseWS s) := by
    rw [← hw]
    exact List.mem_append_left w hc
  exact mem_collapseWSAux s false c (mem_of_mem_dropWhile h1)

/-- C4. `escape_markdown_chars` is idempotent on text containing no raw
pipe, carriage-return or line-feed characters. -/
theorem escape_markdown_chars_idempotent (s : List Char)
    (h : '|' ∉ s ∧ '\n' ∉ s ∧ '\r' ∉ s) :
    escape_markdown_chars (escape_markdown_chars s) = escape_markdown_chars s := by
  have hes : escape_markdown_chars s = pyStrip (collapseWS s) := escape_of_clean s h
  have hclean : '|' ∉ pyStrip (collapseWS s) ∧ '\n' ∉ pyStrip (collapseWS s) ∧
      '\r' ∉ pyStrip (collapseWS s) := by
    refine ⟨fun hm => ?_, fun hm => ?_, fun hm => ?_⟩
    · rcases mem_pyStrip_collapseWS s _ hm with he | ⟨hmem, _⟩
      · exact absurd he (by decide)
      · exact h.1 hmem
    · rcases mem_pyStrip_collapseWS s _ hm with he | ⟨_, hs⟩
      · exact absurd he (by decide)
      · exact absurd hs (by decide)
    · rcases mem_pyStrip_collapseWS s _ hm with he | ⟨_, hs⟩
      · exact absurd he (by decide)
      · exact absurd hs (by decide)
  rw [hes, escape_of_clean _ hclean]
  have hn : wsNormal false (pyStrip (collapseWS s)) = true :=
    wsNormal_pyStrip _ (wsNormal_collapseWSAux s false)
  rw [show collapseWS (pyStrip (collapseWS s)) = pyStrip (collapseWS s) from
    collapseWSAux_eq_self _ false hn]
  exact pyStrip_idem (collapseWS s)

/-- Witness for C4 at a concrete clean input with a collapsible double
space. -/
theorem escape_markdown_chars_idempotent_w :
    ('|' ∉ "a  b".toList ∧ '\n' ∉ "a  b".toList ∧ '\r' ∉ "a  b".toList) ∧
    escape_markdown_chars (escape_markdown_chars "a  b".toList) =
      escape_markdown_chars "a  b".toList :=
  ⟨⟨by decide, by decide, by decide⟩,
   escape_markdown_chars_idempotent _ ⟨by decide, by decide, by decide⟩⟩

/-! ## Splitting emitted lines back into fields (C5) -/

/-- Whether a string starts with the three characters of `" | "`. -/
def sepAt : List Char → Bool
  | c1 :: c2 :: c3 :: _ => c1 == ' ' && c2 == '|' && c3 == ' '
  | _ => false

/-- Locate the first occurrence of `" | "` in a string: `some (a, b)` with
the text before and after the occurrence, or `none` when there is none
(the scanning step of Python's `str.split(" | ")`). -/
def breakOn : List Char → Option (List Char × List Char)
  | [] => none
  | c :: cs =>
    if sepAt (c :: cs) then some ([], (c :: cs).drop 3)
    else
      match breakOn cs with
      | none => none
      | some (a, b) => some (c :: a, b)

/-- Fuelled worker for `str.split(" | ")`; each split consumes at least
three characters, so any fuel of at least the text length is enough. -/
def splitSepFuel : Nat → List Char → List (List Char)
  | 0, s => [s]
  | fuel + 1, s =>
    match breakOn s with
    | none => [s]
    | some (a, b) => a :: splitSepFuel fuel b

/-- Python's `str.split(" | ")`: greedy left-to-right non-overlapping
splitting; the split of the empty string is one empty field. -/
def splitSep (s : List Char) : List (List Char) :=
  splitSepFuel (s.length + 1) s

/-- Strip the leading `"| "` and trailing `" |"` of an emitted line (the
claim's round-trip preparation). -/
def stripWrap (l : List Char) : List Char :=
  (l.drop 2).take ((l.drop 2).length - 2)

/-- Whether the last two characters of a string are a space followed by a
pipe — the only way an occurrence of `" | "` can straddle the boundary
between a cell and the separator that follows it. -/
def endsSpacePipe : List Char → Bool
  | [] => false
  | [_] => false
  | [a, b] => a == ' ' && b == '|'
  | _ :: b :: e :: rest => endsSpacePipe (b :: e :: rest)

/-- Scanning invariant of escaped text: no character is a pipe unless the
previous character is a backslash (the argument is the previous character,
`none` at the start of the string). -/
def nup : Option Char → List Char → Bool
  | _, [] => true
  | p, c :: cs => ((c != '|') || (p == some '\\')) && nup (some c) cs

/-- Scanning past an escaped pipe. -/
theorem nup_cons_backslash_pipe (p : Option Char) (cs : List Char) :
    nup p ('\\' :: '|' :: cs) = nup (some '|') cs := by
  have h1 : (('\\' : Char) != '|') = true := by decide
  have h2 : ((some '\\' : Option Char) == some '\\') = true := by decide
  simp [nup, h1, h2]

/-- Scanning past a non-pipe character. -/
theorem nup_cons_nonpipe (p : Option Char) (c : Char) (cs : List Char)
    (hc : (c != '|') = true) : nup p (c :: cs) = nup (some c) cs := by
  simp [nup, hc]

/-- Pipe escaping establishes the invariant. -/
theorem nup_escapePipes (l : List Char) :
    ∀ p : Option Char, nup p (escapePipes l) = true := by
  induction l with
  | nil => intro p; rfl
  | cons c cs ih =>
    intro p
    by_cases hc : c = '|'
    · subst hc
      rw [show escapePipes ('|' :: cs) = '\\' :: '|' :: escapePipes cs from by
        simp [escapePipes]]
      rw [nup_cons_backslash_pipe]
      exact ih _
    · rw [show escapePipes (c :: cs) = c :: escapePipes cs from by
        simp [escapePipes, hc]]
      rw [nup_cons_nonpipe _ _ _ (by simpa using hc)]
      exact ih _

/-- A character map that creates no pipes and fixes backslash preserves the
invariant. -/
theorem nup_map (f : Char → Char) (hpipe : ∀ c, f c = '|' → c = '|')
    (hbs : f '\\' = '\\') (l : List Char) :
    ∀ p : Option Char, nup p l = true → nup (p.map f) (l.map f) = true := by
  induction l with
  | nil => intro p _; rfl
  | cons c cs ih =>
    intro p h
    simp only [nup, Bool.and_eq_true] at h
    rcases h with ⟨h1, h2⟩
    have htail : nup (some (f c)) (cs.map f) = true := ih (some c) h2
    simp only [List.map_cons, nup, Bool.and_eq_true]
    refine ⟨?_, htail⟩
    by_cases hfc : f c = '|'
    · have hc : c = '|' := hpipe c hfc
      subst hc
      rcases Bool.or_eq_true_iff.mp h1 with hb | hb
      · exact absurd hb (by decide)
      · have hp : p = some '\\' := by simpa [beq_iff_eq] using hb
        subst hp
        simp [hfc, hbs]
    · simp [bne_iff_ne, hfc]

/-- Whitespace-run collapsing preserves the invariant.  The flag of
`collapseWSAux` holds only when the previous input character was
whitespace and the last emitted character is the replacement space. -/
theorem nup_collapseWSAux (l : List Char) :
    ∀ (b : Bool) (p q : Option Char), nup p l = true →
      (b = true → q = some ' ' ∧ ∃ s, p = some s ∧ isPySpace s = true) →
      (b = false → q = p) →
      nup q (collapseWSAux b l) = true := by
  induction l with
  | nil => intro b p q _ _ _; cases b <;> rfl
  | cons c cs ih =>
    intro b p q h hbt hbf
    simp only [nup, Bool.and_eq_true] at h
    rcases h with ⟨h1, h2⟩
    by_cases hsp : isPySpace c
    · cases b with
      | true =>
        rw [show collapseWSAux true (c :: cs) = collapseWSAux true cs from by
          simp [collapseWSAux, hsp]]
        exact ih true (some c) q h2
          (fun _ => ⟨(hbt rfl).1, c, rfl, hsp⟩) (fun hf => nomatch hf)
      | false =>
        rw [show collapseWSAux false (c :: cs) = ' ' :: collapseWSAux true cs
          from by simp [collapseWSAux, hsp]]
        simp only [nup, Bool.and_eq_true]
        constructor
        · have : ((' ' : Char) != '|') = true := by decide
          simp [this]
        · exact ih true (some c) (some ' ') h2
            (fun _ => ⟨rfl, c, rfl, hsp⟩) (fun hf => nomatch hf)
    · rw [show collapseWSAux b (c :: cs) = c :: collapseWSAux false cs from by
        simp [collapseWSAux, hsp]]
      simp only [nup, Bool.and_eq_true]
      constructor
      · by_cases hcp : c = '|'
        · subst hcp
          rcases Bool.or_eq_true_iff.mp h1 with hb | hb
          · exact absurd hb (by decide)
          · have hp : p = some '\\' := by simpa [beq_iff_eq] using hb
            cases b with
            | true =>
              rcases (hbt rfl).2 with ⟨s, hs1, hs2⟩
              rw [hp] at hs1
              cases hs1
              exact absurd hs2 (by decide)
            | false =>
              rw [hbf rfl, hp]
              simp
        · simp [bne_iff_ne, hcp]
      · exact ih false (some c) (some c) h2 (fun ht => nomatch ht) (fun _ => rfl)

/-- Left-stripping preserves the invariant (restarted at the new head). -/
theorem nup_dropWhileWS (l : List Char) :
    ∀ p : Option Char, nup p l = true → p ≠ some '\\' →
      nup none (l.dropWhile isPySpace) = true := by
  induction l with
  | nil => intro p _ _; rfl
  | cons c cs ih =>
    intro p h hp
    simp only [nup, Bool.and_eq_true] at h
    rcases h with ⟨h1, h2⟩
    by_cases hsp : isPySpace c
    · rw [List.dropWhile_cons_of_pos hsp]
      refine ih (some c) h2 (fun he => ?_)
      cases he
      exact absurd hsp (by decide)
    · rw [List.dropWhile_cons_of_neg (by simpa using hsp)]
      simp only [nup, Bool.and_eq_true]
      refine ⟨?_, h2⟩
      by_cases hcp : c = '|'
      · subst hcp
        rcases Bool.or_eq_true_iff.mp h1 with hb | hb
        · exact absurd hb (by decide)
        · exact absurd (by simpa [beq_iff_eq] using hb) hp
      · simp [bne_iff_ne, hcp]

/-- The invariant restricts to an initial segment. -/
theorem nup_append_left (l₁ l₂ : List Char) :
    ∀ p : Option Char, nup p (l₁ ++ l₂) = true → nup p l₁ = true := by
  induction l₁ with
  | nil => intro p _; rfl
  | cons c cs ih =>
    intro p h
    simp only [List.cons_append, nup, Bool.and_eq_true] at h ⊢
    exact ⟨h.1, ih (some c) h.2⟩

/-- The output of the full escaping pipeline satisfies the invariant. -/
theorem nup_escape (s : List Char) :
    nup none (escape_markdown_chars s) = true := by
  have h0 : nup none (escapePipes s) = true := nup_escapePipes s none
  have h1 : nup none (replaceLF (escapePipes s)) = true := by
    have := nup_map (fun c => if c = '\n' then ' ' else c)
      (fun c hc => by
        have hc2 : (if c = '\n' then ' ' else c) = '|' := hc
        by_cases h : c = '\n'
        · rw [if_pos h] at hc2
          exact absurd hc2 (by decide)
        · rwa [if_neg h] at hc2)
      (by decide) (escapePipes s) none h0
    simpa [replaceLF] using this
  have h2 : nup none (replaceCR (replaceLF (escapePipes s))) = true := by
    have := nup_map (fun c => if c = '\r' then ' ' else c)
      (fun c hc => by
        have hc2 : (if c = '\r' then ' ' else c) = '|' := hc
        by_cases h : c = '\r'
        · rw [if_pos h] at hc2
          exact absurd hc2 (by decide)
        · rwa [if_neg h] at hc2)
      (by decide) (replaceLF (escapePipes s)) none h1
    simpa [replaceCR] using this
  have h3 : nup none (collapseWS (replaceCR (replaceLF (escapePipes s)))) = true :=
    nup_collapseWSAux _ false none none h2 (fun ht => nomatch ht) (fun _ => rfl)
  have h4 : nup none
      (lstripWS (collapseWS (replaceCR (replaceLF (escapePipes s))))) = true :=
    nup_dropWhileWS _ none h3 (fun he => nomatch he)
  rcases rstripWS_append_exists
    (lstripWS (collapseWS (replaceCR (replaceLF (escapePipes s))))) with ⟨w, hw⟩
  have := nup_append_left _ w none (by rwa [hw])
  simpa [escape_markdown_chars, pyStrip] using this

/-- Text satisfying the invariant contains no occurrence of `" | "`: such an
occurrence would put a pipe right after a space. -/
theorem breakOn_eq_none_of_nup (l : List Char) :
    ∀ p : Option Char, nup p l = true → breakOn l = none := by
  induction l with
  | nil => intro p _; rfl
  | cons c cs ih =>
    intro p h
    simp only [nup, Bool.and_eq_true] at h
    rcases h with ⟨h1, h2⟩
    by_cases hpre : sepAt (c :: cs) = true
    · exfalso
      cases cs with
      | nil => exact Bool.false_ne_true ((rfl : sepAt [c] = false).symm.trans hpre)
      | cons d cs2 =>
        cases cs2 with
        | nil =>
          exact Bool.false_ne_true ((rfl : sepAt [c, d] = false).symm.trans hpre)
        | cons e cs3 =>
          simp only [sepAt, Bool.and_eq_true, beq_iff_eq] at hpre
          rcases hpre with ⟨⟨hc, hd⟩, -⟩
          subst hc
          subst hd
          simp only [nup, Bool.and_eq_true] at h2
          exact absurd h2.1 (by decide)
    · have hfalse : sepAt (c :: cs) = false := Bool.eq_false_iff.mpr hpre
      have hcs : breakOn cs = none := ih (some c) h2
      simp [breakOn, hfalse, hcs]

/-- Scanning a lone space-pipe pair violates the invariant. -/
theorem nup_pair_space_pipe (p : Option Char) : nup p [' ', '|'] = false := by
  have h1 : ((' ' : Char) != '|') = true := by decide
  have h2 : (('|' : Char) != '|') = false := by decide
  have h3 : ((some ' ' : Option Char) == some '\\') = false := by decide
  simp [nup, h1, h2, h3]

/-- Text satisfying the invariant does not end in a space followed by a
pipe. -/
theorem endsSpacePipe_eq_false_of_nup (l : List Char) :
    ∀ p : Option Char, nup p l = true → endsSpacePipe l = false := by
  induction l with
  | nil => intro p _; rfl
  | cons c cs ih =>
    intro p h
    simp only [nup, Bool.and_eq_true] at h
    rcases h with ⟨h1, h2⟩
    cases cs with
    | nil => rfl
    | cons d cs2 =>
      cases cs2 with
      | nil =>
        show (c == ' ' && d == '|') = false
        by_cases hc : c = ' '
        · by_cases hd : d = '|'
          · subst hc
            subst hd
            exact absurd h2 (by decide)
          · simp [hd]
        · simp [hc]
      | cons e cs3 =>
        show endsSpacePipe (d :: e :: cs3) = false
        exact ih (some c) h2

/-- Key splitting step: a separator-free cell that does not end in
space-pipe followed by `" | " ++ t` has its first `" | "` occurrence exactly
at the cell boundary. -/
theorem breakOn_join (c : List Char) :
    ∀ t : List Char, breakOn c = none → endsSpacePipe c = false →
      breakOn (c ++ sepBar ++ t) = some (c, t) := by
  induction c with
  | nil =>
    intro t _ _
    simp only [List.nil_append]
    show breakOn (' ' :: '|' :: ' ' :: t) = some ([], t)
    have hpre : sepAt (' ' :: '|' :: ' ' :: t) = true := by simp [sepAt]
    simp [breakOn, hpre]
  | cons a c' ih =>
    intro t hB hE
    have hsplit : sepAt (a :: c') = false ∧ breakOn c' = none := by
      by_cases hpre : sepAt (a :: c') = true
      · rw [show breakOn (a :: c') = some ([], (a :: c').drop 3) from by
          simp [breakOn, hpre]] at hB
        cases hB
      · have hfalse : sepAt (a :: c') = false := Bool.eq_false_iff.mpr hpre
        refine ⟨hfalse, ?_⟩
        cases hbc : breakOn c' with
        | none => rfl
        | some xy =>
          obtain ⟨x, y⟩ := xy
          rw [show breakOn (a :: c') = some (a :: x, y) from by
            simp [breakOn, hfalse, hbc]] at hB
          cases hB
    simp only [List.cons_append]
    have hpre2 : sepAt (a :: (c' ++ (sepBar ++ t))) = false := by
      cases c' with
      | nil =>
        show sepAt (a :: ' ' :: '|' :: ' ' :: t) = false
        have hmid : ((' ' : Char) == '|') = false := by decide
        simp [sepAt, hmid]
      | cons x vs =>
        cases vs with
        | nil =>
          show sepAt (a :: x :: ' ' :: '|' :: ' ' :: t) = false
          by_cases hax : a = ' ' ∧ x = '|'
          · exfalso
            rcases hax with ⟨ha, hx⟩
            subst ha
            subst hx
            exact absurd hE (by decide)
          · rcases not_and_or.mp hax with ha | hx
            · have hb : ((a : Char) == ' ') = false := beq_eq_false_iff_ne.mpr ha
              simp [sepAt, hb]
            · have hb : ((x : Char) == '|') = false := beq_eq_false_iff_ne.mpr hx
              simp [sepAt, hb]
        | cons y ws =>
          show sepAt (a :: x :: y :: (ws ++ (sepBar ++ t))) = false
          by_cases haxy : a = ' ' ∧ x = '|' ∧ y = ' '
          · exfalso
            rcases haxy with ⟨ha, hx, hy⟩
            subst ha
            subst hx
            subst hy
            have hyes : sepAt (' ' :: '|' :: ' ' :: ws) = true := by
              simp [sepAt]
            exact absurd (hsplit.1.symm.trans hyes) (by decide)
          · rcases not_and_or.mp haxy with ha | hxy
            · have hb : ((a : Char) == ' ') = false := beq_eq_false_iff_ne.mpr ha
              simp [sepAt, hb]
            · rcases not_and_or.mp hxy with hx | hy
              · have hb : ((x : Char) == '|') = false := beq_eq_false_iff_ne.mpr hx
                simp [sepAt, hb]
              · have hb : ((y : Char) == ' ') = false := beq_eq_false_iff_ne.mpr hy
                simp [sepAt, hb]
    have hc'E : endsSpacePipe c' = false := by
      cases c' with
      | nil => rfl
      | cons x vs =>
        cases vs with
        | nil => rfl
        | cons y ws => exact hE
    have hrec := ih t hsplit.2 hc'E
    rw [show breakOn (a :: (c' ++ sepBar ++ t)) =
        (match breakOn (c' ++ sepBar ++ t) with
        | none => none
        | some (x, y) => some (a :: x, y)) from by simp [breakOn, hpre2]]
    rw [hrec]

/-- With enough fuel, splitting inverts joining for non-empty cell lists
whose cells contain no `" | "` and do not end in space-pipe. -/
theorem splitSepFuel_joinSep (cells : List (List Char)) :
    ∀ fuel : Nat, cells ≠ [] →
      (∀ c ∈ cells, breakOn c = none ∧ endsSpacePipe c = false) →
      cells.length ≤ fuel + 1 →
      splitSepFuel fuel (joinSep cells) = cells := by
  induction cells with
  | nil => intro fuel h _ _; exact absurd rfl h
  | cons c rest ih =>
    intro fuel _ hgood hlen
    cases rest with
    | nil =>
      have hc := hgood c (List.mem_cons_self c [])
      cases fuel with
      | zero => rfl
      | succ f =>
        show (match breakOn (joinSep [c]) with
          | none => [joinSep [c]]
          | some (a, b) => a :: splitSepFuel f b) = [c]
        rw [show joinSep [c] = c from rfl, hc.1]
    | cons c2 rest2 =>
      cases fuel with
      | zero =>
        simp only [List.length_cons] at hlen
        omega
      | succ f =>
        have hcg := hgood c (List.mem_cons_self c _)
        rw [show joinSep (c :: c2 :: rest2) = c ++ sepBar ++ joinSep (c2 :: rest2)
          from rfl]
        show (match breakOn (c ++ sepBar ++ joinSep (c2 :: rest2)) with
          | none => [c ++ sepBar ++ joinSep (c2 :: rest2)]
          | some (a, b) => a :: splitSepFuel f b) = c :: c2 :: rest2
        rw [breakOn_join c (joinSep (c2 :: rest2)) hcg.1 hcg.2]
        show c :: splitSepFuel f (joinSep (c2 :: rest2)) = c :: c2 :: rest2
        rw [ih f (by simp) (fun x hx => hgood x (List.mem_cons_of_mem c hx))
          (by simp only [List.length_cons] at hlen ⊢; omega)]

/-- Joining `n` cells produces at least `n - 1` characters. -/
theorem joinSep_length_ge (cells : List (List Char)) :
    cells.length ≤ (joinSep cells).length + 1 := by
  induction cells with
  | nil => simp [joinSep]
  | cons c rest ih =>
    cases rest with
    | nil => simp [joinSep]
    | cons c2 rest2 =>
      rw [show joinSep (c :: c2 :: rest2) = c ++ sepBar ++ joinSep (c2 :: rest2)
        from rfl]
      simp only [List.length_cons, List.length_append, sepBar] at ih ⊢
      simp only [List.length_cons, List.length_nil]
      omega

/-- `str.split(" | ")` inverts `" | ".join` on well-formed cells. -/
theorem splitSep_joinSep (cells : List (List Char)) (hne : cells ≠ [])
    (hgood : ∀ c ∈ cells, breakOn c = none ∧ endsSpacePipe c = false) :
    splitSep (joinSep cells) = cells :=
  splitSepFuel_joinSep cells ((joinSep cells).length + 1) hne hgood
    (le_trans (joinSep_length_ge cells) (by omega))

/-- Stripping the wrap of an emitted line recovers the joined cells. -/
theorem stripWrap_mkLine (cells : List (List Char)) :
    stripWrap (mkLine cells) = joinSep cells := by
  show ((mkLine cells).drop 2).take (((mkLine cells).drop 2).length - 2) =
    joinSep cells
  rw [show (mkLine cells).drop 2 = joinSep cells ++ [' ', '|'] from rfl]
  rw [show (joinSep cells ++ [' ', '|']).length - 2 = (joinSep cells).length
    from by simp]
  exact List.take_left _ _

/-- A normalized row always has exactly the header's field count. -/
theorem normalize_row_length (n : Nat) (row : List (List Char)) :
    (normalize_row n row).length = n := by
  simp only [normalize_row, List.length_take, List.length_append,
    List.length_replicate]
  omega

/-- Every escaped cell is well formed for splitting: it contains no `" | "`
and does not end in a space followed by a pipe. -/
theorem good_escaped_cell (s : List Char) :
    breakOn (escape_markdown_chars s) = none ∧
    endsSpacePipe (escape_markdown_chars s) = false :=
  ⟨breakOn_eq_none_of_nup _ none (nup_escape s),
   endsSpacePipe_eq_false_of_nup _ none (nup_escape s)⟩

/-- Splitting a stripped emitted line recovers its cells. -/
theorem split_mkLine (cells : List (List Char)) (hne : cells ≠ [])
    (hgood : ∀ c ∈ cells, breakOn c = none ∧ endsSpacePipe c = false) :
    splitSep (stripWrap (mkLine cells)) = cells := by
  rw [stripWrap_mkLine]
  exact splitSep_joinSep cells hne hgood

/-- C5 (counterexample): the claim fails for the non-empty Table `[[]]`
whose header row has zero fields — its emitted header line, stripped and
split on `" | "`, yields one field, not zero. -/
theorem emitted_line_field_count_cex :
    ([([] : List (List Char))] : List (List (List Char))) ≠ [] ∧
    header_line [] ∈ markdown_lines [[]] ∧
    (splitSep (stripWrap (header_line []))).length ≠
      ([] : List (List Char)).length := by
  refine ⟨by decide, ?_, by decide⟩
  simp [markdown_lines]

/-- C5 (amended). For every Table whose header row is non-empty, every line
of the emitted Markdown (header, separator, and each data line), after
stripping the leading `"| "` and trailing `" |"` and splitting on `" | "`,
yields exactly the header's field count. -/
theorem emitted_line_field_count (header : List (List Char))
    (data : List (List (List Char))) (hne : header ≠ []) :
    ∀ line ∈ markdown_lines (header :: data),
      (splitSep (stripWrap line)).length = header.length := by
  intro line hl
  have hpos : 0 < header.length := List.length_pos.mpr hne
  simp only [markdown_lines, List.mem_cons] at hl
  rcases hl with h | h | h
  · subst h
    have h1 : header.map escape_markdown_chars ≠ [] := by
      intro hmap
      exact hne (by simpa using hmap)
    have h2 : ∀ c ∈ header.map escape_markdown_chars,
        breakOn c = none ∧ endsSpacePipe c = false := by
      intro c hc
      rcases List.mem_map.mp hc with ⟨x, _, hx⟩
      exact hx ▸ good_escaped_cell x
    show (splitSep (stripWrap (mkLine (header.map escape_markdown_chars)))).length
      = header.length
    rw [split_mkLine _ h1 h2, List.length_map]
  · subst h
    have h1 : List.replicate header.length (['-', '-', '-'] : List Char) ≠ [] := by
      intro hrep
      have := congrArg List.length hrep
      simp only [List.length_replicate, List.length_nil] at this
      omega
    have h2 : ∀ c ∈ List.replicate header.length (['-', '-', '-'] : List Char),
        breakOn c = none ∧ endsSpacePipe c = false := by
      intro c hc
      have hceq : c = ['-', '-', '-'] := List.eq_of_mem_replicate hc
      subst hceq
      exact ⟨by decide, by decide⟩
    show (splitSep (stripWrap (mkLine
      (List.replicate header.length ['-', '-', '-'])))).length = header.length
    rw [split_mkLine _ h1 h2, List.length_replicate]
  · rcases List.mem_map.mp h with ⟨row, _, hline⟩
    subst hline
    have h1 : (normalize_row header.length row).map escape_markdown_chars ≠ [] := by
      intro hmap
      have := congrArg List.length hmap
      simp only [List.length_map, normalize_row_length, List.length_nil] at this
      omega
    have h2 : ∀ c ∈ (normalize_row header.length row).map escape_markdown_chars,
        breakOn c = none ∧ endsSpacePipe c = false := by
      intro c hc
      rcases List.mem_map.mp hc with ⟨x, _, hx⟩
      exact hx ▸ good_escaped_cell x
    show (splitSep (stripWrap (mkLine
      ((normalize_row header.length row).map escape_markdown_chars)))).length
      = header.length
    rw [split_mkLine _ h1 h2, List.length_map, normalize_row_length]

/-- Witness for C5 at a concrete two-column table. -/
theorem emitted_line_field_count_w :
    (splitSep (stripWrap (header_line [['a'], ['b']]))).length = 2 :=
  emitted_line_field_count [['a'], ['b']] [] (by decide)
    (header_line [['a'], ['b']]) (by simp [markdown_lines])
